import Mathlib

/-!
Verification of the text post-processing core of a LinkedIn-post generation
service.  Python strings are embedded as lists of characters (`Str`), and
each Python routine of the repository is translated into an executable Lean
definition:

* `enforce` embeds `GroqService._enforce_character_limit`
  (backend/services/groq_service.py, lines 99-137);
* `clean_response` embeds `GroqService._clean_response` (lines 291-352);
* `generate_post_content` embeds the control flow of
  `GroqService.generate_post_content` (lines 41-97), with the external
  provider call abstracted as an oracle `gen : Str → GenResult`;
* `initModel` / `switch_model` embed the model bookkeeping of
  `GroqService.__init__` and `GroqService.switch_model` (lines 11-39);
* `create_post_truncate` embeds the length re-validation inside
  `LinkedInService.create_post` (backend/services/linkedin_service.py,
  lines 53-68).
-/

/-- A Python string, embedded as a list of characters. -/
abbrev Str := List Char

/-- Python whitespace characters, as recognised by `str.strip` / `str.split`. -/
def pySpace (c : Char) : Bool :=
  c == ' ' || c == '\t' || c == '\n' || c == '\x0b' || c == '\x0c' || c == '\r'

/-- Python `str.lower` (ASCII fragment, which covers every character the code
compares against). -/
def lowerStr (s : Str) : Str := s.map Char.toLower

/-- Python `str.rfind(c)`: index of the rightmost occurrence of `c`, `-1` if absent. -/
def rfind (c : Char) : Str → Int
  | [] => -1
  | x :: xs =>
    if rfind c xs ≥ 0 then rfind c xs + 1
    else if x = c then 0 else -1

/-- Python `s.split('\n')`: split on every newline, keeping empty segments. -/
def splitLines : Str → List Str
  | [] => [[]]
  | c :: cs =>
    if c = '\n' then [] :: splitLines cs
    else
      match splitLines cs with
      | [] => [[c]]
      | l :: ls => (c :: l) :: ls

/-- Helper for `joinLines`: renders `'\n' ++ line` for each remaining line. -/
def auxJoin : List Str → Str
  | [] => []
  | y :: ys => '\n' :: (y ++ auxJoin ys)

/-- Python `'\n'.join(lines)`. -/
def joinLines : List Str → Str
  | [] => []
  | x :: xs => x ++ auxJoin xs

/-- Left half of `s.strip()`: drop leading whitespace. -/
def dropLead (s : Str) : Str := s.dropWhile pySpace

/-- Right half of `s.strip()`: drop trailing whitespace. -/
def dropTrail (s : Str) : Str := (s.reverse.dropWhile pySpace).reverse

/-- Python `str.strip()`. -/
def pyStrip (s : Str) : Str := dropTrail (dropLead s)

/-- Does `p` occur as a leading segment of `s`? -/
def startsSeq : Str → Str → Bool
  | [], _ => true
  | _ :: _, [] => false
  | p :: ps, c :: cs => p == c && startsSeq ps cs

/-- Python `p in s`: does `p` occur contiguously inside `s`? -/
def isSubstr (p : Str) : Str → Bool
  | [] => startsSeq p []
  | c :: cs => startsSeq p (c :: cs) || isSubstr p cs

/-- Propositional form of substring occurrence. -/
def SubSeg (p s : Str) : Prop := ∃ u v, s = u ++ p ++ v

/-- Accumulator-based worker for `splitWS`. -/
def splitWSAux : Str → Str → List Str
  | [], acc => if acc.isEmpty then [] else [acc.reverse]
  | c :: cs, acc =>
    if pySpace c then
      if acc.isEmpty then splitWSAux cs []
      else acc.reverse :: splitWSAux cs []
    else splitWSAux cs (c :: acc)

/-- Python `str.split()` with no separator: whitespace-delimited words. -/
def splitWS (s : Str) : List Str := splitWSAux s []

/-- The last line of a text, i.e. the last element of `splitLines`. -/
def finalLine (s : Str) : Str := (splitLines s).getLastD []

/-- The three sentence-ending searches of the truncation heuristics: the
rightmost of `.`, `?`, `!` (`-1` when none occurs). -/
def bestEnding (s : Str) : Int :=
  max (max (rfind '.' s) (rfind '?' s)) (rfind '!' s)

/-- The continuation marker appended by `_enforce_character_limit`. -/
def contMarker : Str := ("\n\n[Content continued in comments...]").toList

/-- Steps 2-4 of `_enforce_character_limit`: take the `max_chars`-prefix and
move the cut back to just after the rightmost sentence ending when that
ending lies within 200 characters of the limit.  In Python,
`content[:best_ending + 1]` with `best_ending = -1` yields the empty
string, hence the `(… + 1).toNat` slice bound. -/
def sentenceCut (content : Str) (max_chars : Nat) : Str :=
  if bestEnding (content.take max_chars) > (max_chars : Int) - 200 then
    content.take (bestEnding (content.take max_chars) + 1).toNat
  else content.take max_chars

/-- Step 5's keep-condition: drop a line iff it starts with `#` and is
shorter than 3 characters (`line.startswith('#') and len(line) < 3`). -/
def keepLine (line : Str) : Bool :=
  !(line.head? == some '#' && decide (line.length < 3))

/-- Step 5 of `_enforce_character_limit`: re-split into lines, drop
incomplete hashtag fragments, and rejoin. -/
def hashtagCleanup (s : Str) : Str :=
  joinLines ((splitLines s).filter keepLine)

/-- The function `GroqService._enforce_character_limit(content, max_chars=2950)`.
Inside the truncation branch `len(content) > max_chars` always holds, so
the code's second `if` guard is always taken there. -/
def enforce (content : Str) (max_chars : Nat := 2950) : Str :=
  if content.length ≤ max_chars then content
  else if ((hashtagCleanup (sentenceCut content max_chars)).length : Int) <
      (max_chars : Int) - 50 then
    hashtagCleanup (sentenceCut content max_chars) ++ contMarker
  else hashtagCleanup (sentenceCut content max_chars)

/-- The instruction-leak phrases filtered by `GroqService._clean_response`. -/
def instruction_phrases : List Str :=
  [("Here's a LinkedIn post about").toList,
   ("Here's a professional LinkedIn post").toList,
   ("LinkedIn post:").toList,
   ("Content Requirements:").toList,
   ("REQUIREMENTS:").toList,
   ("Instructions:").toList,
   ("Write the LinkedIn post:").toList,
   ("Generate the post content now:").toList,
   ("Post content:").toList,
   ("CRITICAL:").toList,
   ("Length:").toList,
   ("Tone:").toList,
   ("Focus:").toList,
   ("Target audience:").toList,
   ("End with:").toList,
   ("Include 3-4").toList,
   ("- Write").toList,
   ("- Use").toList,
   ("- Include").toList,
   ("- Provide").toList,
   ("- Sound like").toList]

/-- Does the (already stripped) line contain one of the leak phrases,
case-insensitively?  Mirrors the first skip rule of `_clean_response`. -/
def phraseHit (line : Str) : Bool :=
  instruction_phrases.any (fun ph => isSubstr (lowerStr ph) (lowerStr line))

/-- The line-filtering loop of `_clean_response`.  The boolean argument
records whether any line has been kept so far (`cleaned_lines` nonempty). -/
def cleanLines : List Str → Bool → List Str
  | [], _ => []
  | raw :: rest, kept =>
    if phraseHit (pyStrip raw) then cleanLines rest kept
    else if (pyStrip raw).isEmpty && !kept then cleanLines rest kept
    else if (pyStrip raw).head? == some '-' &&
        decide ((splitWS (pyStrip raw)).length < 8) then
      cleanLines rest kept
    else pyStrip raw :: cleanLines rest true

/-- One line is dropped by `_clean_response` regardless of position:
it matches a leak phrase, is empty after stripping, or is a short
dash-bullet (the three skip rules of the loop). -/
def dropRule (line : Str) : Bool :=
  phraseHit line || line.isEmpty ||
    (line.head? == some '-' && decide ((splitWS line).length < 8))

/-- The function `GroqService._clean_response(content)`. -/
def clean_response (content : Str) : Str :=
  pyStrip (joinLines (cleanLines (splitLines content) false))

/-- The non-fatal low-confidence warning of `_clean_response`
(`len(final_content) < 50`). -/
def lowConfWarning (s : Str) : Bool := decide (s.length < 50)

/-- The fixed model catalog `GroqService.available_models`. -/
def available_models : List (Str × Str) :=
  [(("fast").toList, ("llama-3.1-8b-instant").toList),
   (("balanced").toList, ("gemma2-9b-it").toList),
   (("quality").toList, ("llama-3.3-70b-versatile").toList),
   (("compound").toList, ("compound-beta").toList)]

/-- The model identifiers (`available_models.values()`). -/
def modelValues : List Str := available_models.map Prod.snd

/-- The fast-tier fallback model identifier. -/
def fastId : Str := ("llama-3.1-8b-instant").toList

/-- The default quality-tier model identifier. -/
def qualityId : Str := ("llama-3.3-70b-versatile").toList

/-- Model selection in `GroqService.__init__` (`None` and the empty string
are both falsy in Python, so both take the default branch). -/
def initModel (model_name : Option Str) : Str :=
  match model_name with
  | none => qualityId
  | some m =>
    if m ≠ [] ∧ m ∈ modelValues then m
    else if m ≠ [] ∧ (available_models.lookup m).isSome then
      (available_models.lookup m).getD qualityId
    else qualityId

/-- The method `GroqService.switch_model`: a known key switches, an unknown key only
logs a warning and leaves the current model unchanged. -/
def switch_model (current : Str) (model_key : Str) : Str :=
  match available_models.lookup model_key with
  | some mid => mid
  | none => current

/-- Outcome of one provider call (`_generate_with_groq`), abstracted. -/
inductive GenResult where
  | ok : Str → GenResult
  | err : Str → GenResult
deriving DecidableEq

/-- A Python call that either returns a value or raises an exception
carrying a message. -/
inductive PyRes where
  | val : Str → PyRes
  | exn : Str → PyRes
deriving DecidableEq

/-- Result of `generate_post_content`: the produced content or the
propagated error message, the model identifier left in `self.model_name`,
and the models the provider was called with, in order. -/
structure GenOutcome where
  result : PyRes
  final_model : Str
  calls : List Str
deriving DecidableEq

/-- The model-deprecation test of `generate_post_content` (line 71):
`"model" in str(e).lower() and ("decommissioned" in str(e).lower() or
"deprecated" in str(e).lower())`. -/
def modelIssueMatch (e : Str) : Bool :=
  isSubstr (("model").toList) (lowerStr e) &&
    (isSubstr (("decommissioned").toList) (lowerStr e) ||
     isSubstr (("deprecated").toList) (lowerStr e))

/-- The rate-limit test of `generate_post_content` (line 86):
`"rate" in str(e).lower() or "quota" in str(e).lower() or "429" in str(e)`. -/
def rateMatch (e : Str) : Bool :=
  isSubstr (("rate").toList) (lowerStr e) ||
  isSubstr (("quota").toList) (lowerStr e) ||
  isSubstr (("429").toList) e

/-- Fixed text of the canned advisory before the interpolated topic. -/
def ratePre : Str :=
  ("⚠️ Rate limit reached for Groq API.\nPlease wait a moment before generating more content.\n\nTopic requested: ").toList

/-- Fixed text of the canned advisory between topic and model id. -/
def rateMid : Str := ("\n\nCurrent model: ").toList

/-- Fixed text of the canned advisory after the interpolated model id. -/
def rateSuf : Str :=
  ("\nTry switching to a faster model like 'fast' for higher rate limits.\n\nVisit: https://console.groq.com/docs/rate-limits for more info.").toList

/-- The canned rate-limit advisory f-string (lines 87-95). -/
def rateLimitText (topic model : Str) : Str :=
  ratePre ++ topic ++ rateMid ++ model ++ rateSuf

/-- The method `GroqService.generate_post_content`, with the provider abstracted as an
oracle `gen` from the model identifier used for the call to its outcome.
On provider failure the code first tries the fast-model fallback when the
message matches the deprecation pattern (restoring `self.model_name` when
the fallback also fails), then returns the canned advisory on a rate-limit
match of the original message, and otherwise re-raises the original
exception. -/
def generate_post_content (gen : Str → GenResult) (model_name : Str)
    (topic : Str) : GenOutcome :=
  match gen model_name with
  | .ok content => ⟨.val (enforce content 2950), model_name, [model_name]⟩
  | .err e =>
    if modelIssueMatch e then
      match gen fastId with
      | .ok c => ⟨.val (enforce c 2950), fastId, [model_name, fastId]⟩
      | .err _fallback_error =>
        -- self.model_name restored to the original before falling through
        if rateMatch e then
          ⟨.val (rateLimitText topic model_name), model_name, [model_name, fastId]⟩
        else ⟨.exn e, model_name, [model_name, fastId]⟩
    else
      if rateMatch e then
        ⟨.val (rateLimitText topic model_name), model_name, [model_name]⟩
      else ⟨.exn e, model_name, [model_name]⟩

/-- The length re-validation at the top of `LinkedInService.create_post`
(linkedin_service.py, lines 53-68): texts over 3000 characters are cut to
the 2950-prefix, moved back to the last sentence ending when that ending
lies beyond index 2800. -/
def create_post_truncate (content : Str) : Str :=
  if content.length > 3000 then
    if bestEnding (content.take 2950) > 2800 then
      content.take (bestEnding (content.take 2950) + 1).toNat
    else content.take 2950
  else content

/-! ### Basic lemmas about the string primitives -/

theorem rfind_lt_length (c : Char) (s : Str) : rfind c s < (s.length : Int) := by
  induction s with
  | nil => simp [rfind]
  | cons x xs ih =>
    simp only [rfind, List.length_cons]
    push_cast
    split
    · omega
    · split <;> omega

theorem bestEnding_lt_length (s : Str) : bestEnding s < (s.length : Int) := by
  simp only [bestEnding, max_lt_iff]
  exact ⟨⟨rfind_lt_length _ _, rfind_lt_length _ _⟩, rfind_lt_length _ _⟩

theorem splitLines_ne_nil (s : Str) : splitLines s ≠ [] := by
  cases s with
  | nil => simp [splitLines]
  | cons c cs =>
    simp only [splitLines]
    split
    · simp
    · cases h : splitLines cs <;> simp

theorem auxJoin_filter_length_le (p : Str → Bool) (l : List Str) :
    (auxJoin (l.filter p)).length ≤ (auxJoin l).length := by
  induction l with
  | nil => simp
  | cons y ys ih =>
    by_cases h : p y
    · simp only [List.filter_cons, h, if_pos, auxJoin, List.length_cons,
        List.length_append]
      omega
    · simp only [List.filter_cons, h, Bool.false_eq_true, if_neg,
        not_false_eq_true, auxJoin, List.length_cons, List.length_append]
      omega

theorem joinLines_length_le_auxJoin (l : List Str) :
    (joinLines l).length ≤ (auxJoin l).length := by
  cases l with
  | nil => simp [joinLines, auxJoin]
  | cons x xs =>
    simp only [joinLines, auxJoin, List.length_cons, List.length_append]
    omega

theorem joinLines_filter_length_le (p : Str → Bool) (l : List Str) :
    (joinLines (l.filter p)).length ≤ (joinLines l).length := by
  cases l with
  | nil => simp
  | cons x xs =>
    by_cases h : p x
    · simp only [List.filter_cons, h, if_pos, joinLines, List.length_append]
      have := auxJoin_filter_length_le p xs
      omega
    · simp only [List.filter_cons, h, Bool.false_eq_true, if_neg,
        not_false_eq_true, joinLines, List.length_append]
      have h1 := joinLines_length_le_auxJoin (xs.filter p)
      have h2 := auxJoin_filter_length_le p xs
      have h3 : (joinLines (xs.filter p)).length ≤ (auxJoin xs).length := le_trans h1 h2
      cases hf : xs.filter p with
      | nil => simp [joinLines]
      | cons z zs =>
        rw [hf] at h3
        simpa [joinLines] using le_trans h3 (Nat.le_add_left _ _)

theorem joinLines_splitLines (s : Str) : joinLines (splitLines s) = s := by
  induction s with
  | nil => rfl
  | cons c cs ih =>
    simp only [splitLines]
    split
    · rename_i hc
      cases h : splitLines cs with
      | nil => exact absurd h (splitLines_ne_nil cs)
      | cons l ls =>
        rw [h] at ih
        subst hc
        simp only [joinLines, auxJoin, List.nil_append] at ih ⊢
        simp [ih]
    · cases h : splitLines cs with
      | nil => exact absurd h (splitLines_ne_nil cs)
      | cons l ls =>
        rw [h] at ih
        simp only [joinLines, List.cons_append] at ih ⊢
        simp [ih]

/-! ### Length bounds for the enforcement pipeline -/

theorem sentenceCut_length_le (content : Str) (m : Nat) :
    (sentenceCut content m).length ≤ m := by
  simp only [sentenceCut]
  split
  · have hlt := bestEnding_lt_length (content.take m)
    have hm : ((content.take m).length : Int) ≤ (m : Int) := by
      exact_mod_cast List.length_take_le m content
    have htake := List.length_take_le (bestEnding (content.take m) + 1).toNat content
    omega
  · exact List.length_take_le m content

theorem hashtagCleanup_length_le (s : Str) :
    (hashtagCleanup s).length ≤ s.length := by
  have h := joinLines_filter_length_le keepLine (splitLines s)
  rw [joinLines_splitLines] at h
  exact h

theorem contMarker_length : contMarker.length = 36 := by decide

/-- Claim C1: for every input text and every budget `max_chars`, the
length enforcer returns a string of length at most `max_chars`; it is a
total function, so it can never fail, across the sentence-boundary cut,
the incomplete-hashtag cleanup and the continuation-marker branches. -/
theorem enforce_length_le (content : Str) (max_chars : Nat) :
    (enforce content max_chars).length ≤ max_chars := by
  simp only [enforce]
  split
  · assumption
  · have h1 : (hashtagCleanup (sentenceCut content max_chars)).length ≤ max_chars :=
      le_trans (hashtagCleanup_length_le _) (sentenceCut_length_le _ _)
    split
    · rename_i hcond
      rw [List.length_append, contMarker_length]
      omega
    · exact h1

/-- Claim C8: the enforcer is the identity on texts already within the
budget. -/
theorem enforce_id_of_le (content : Str) (max_chars : Nat)
    (h : content.length ≤ max_chars) : enforce content max_chars = content := by
  simp [enforce, h]

/-- Witness for C8 at the concrete text `"hi"` and the default budget. -/
theorem enforce_id_of_le_witness :
    (("hi").toList).length ≤ 2950 ∧ enforce (("hi").toList) 2950 = ("hi").toList :=
  ⟨by decide, enforce_id_of_le (("hi").toList) 2950 (by decide)⟩

/-! ### Line-structure lemmas for the final-line analysis -/

theorem getLastD_defaults {α : Type} : ∀ (l : List α) (d d' : α), l ≠ [] →
    l.getLastD d = l.getLastD d'
  | [], _, _, h => absurd rfl h
  | [_], _, _, _ => rfl
  | _ :: _ :: _, d, d', _ => by simp only [List.getLastD_cons]

theorem getLastD_mem {α : Type} : ∀ (l : List α) (d : α), l ≠ [] →
    l.getLastD d ∈ l := by
  intro l
  induction l with
  | nil => intro d h; exact absurd rfl h
  | cons x xs ih =>
    intro d _
    cases hx : xs with
    | nil => simp [List.getLastD]
    | cons y ys =>
      rw [List.getLastD_cons]
      subst hx
      exact List.mem_cons_of_mem _ (ih x (by simp))

theorem mem_splitLines_no_nl : ∀ (s : Str) (l : Str), l ∈ splitLines s → '\n' ∉ l := by
  intro s
  induction s with
  | nil =>
    intro l hl
    simp only [splitLines, List.mem_singleton] at hl
    simp [hl]
  | cons c cs ih =>
    intro l hl
    simp only [splitLines] at hl
    by_cases hc : c = '\n'
    · rw [if_pos hc] at hl
      rcases List.mem_cons.mp hl with h | h
      · simp [h]
      · exact ih l h
    · rw [if_neg hc] at hl
      cases h : splitLines cs with
      | nil => exact absurd h (splitLines_ne_nil cs)
      | cons m ms =>
        rw [h] at hl
        rcases List.mem_cons.mp hl with hme | hme
        · subst hme
          intro hmem
          rcases List.mem_cons.mp hmem with h1 | h1
          · exact hc h1.symm
          · exact ih m (h ▸ List.mem_cons_self m ms) h1
        · exact ih l (h ▸ List.mem_cons_of_mem m hme)

theorem splitLines_no_nl (s : Str) (h : '\n' ∉ s) : splitLines s = [s] := by
  induction s with
  | nil => rfl
  | cons c cs ih =>
    have hc : c ≠ '\n' := fun he => h (he ▸ List.mem_cons_self c cs)
    have hcs : '\n' ∉ cs := fun hm => h (List.mem_cons_of_mem c hm)
    simp only [splitLines, if_neg hc, ih hcs]

theorem splitLines_cons_of_ne (c : Char) (cs : Str) (hc : c ≠ '\n') :
    splitLines (c :: cs) =
      (c :: (splitLines cs).headD []) :: (splitLines cs).tail := by
  simp only [splitLines, if_neg hc]
  cases h : splitLines cs with
  | nil => exact absurd h (splitLines_ne_nil cs)
  | cons l ls => simp

theorem splitLines_append_nl (x : Str) (r : Str) (h : '\n' ∉ x) :
    splitLines (x ++ '\n' :: r) = x :: splitLines r := by
  induction x with
  | nil => simp [splitLines]
  | cons c cx ih =>
    have hc : c ≠ '\n' := fun he => h (he ▸ List.mem_cons_self c cx)
    have hcx : '\n' ∉ cx := fun hm => h (List.mem_cons_of_mem c hm)
    rw [List.cons_append, splitLines_cons_of_ne c _ hc, ih hcx]
    simp

theorem splitLines_joinLines : ∀ (ls : List Str), (∀ l ∈ ls, '\n' ∉ l) →
    ls ≠ [] → splitLines (joinLines ls) = ls := by
  intro ls
  induction ls with
  | nil => intro _ h; exact absurd rfl h
  | cons x xs ih =>
    intro hnl _
    cases xs with
    | nil =>
      simp only [joinLines, auxJoin, List.append_nil]
      exact splitLines_no_nl x (hnl x (List.mem_cons_self x []))
    | cons y ys =>
      have hx : '\n' ∉ x := hnl x (List.mem_cons_self x (y :: ys))
      have hrest : ∀ l ∈ y :: ys, '\n' ∉ l := fun l hl =>
        hnl l (List.mem_cons_of_mem x hl)
      have : joinLines (x :: y :: ys) = x ++ '\n' :: joinLines (y :: ys) := by
        simp [joinLines, auxJoin]
      rw [this, splitLines_append_nl x _ hx, ih hrest (by simp)]

theorem two_le_splitLines_append : ∀ (a b : Str),
    2 ≤ (splitLines (a ++ '\n' :: b)).length := by
  intro a
  induction a with
  | nil =>
    intro b
    have h1 : 1 ≤ (splitLines b).length := List.length_pos.mpr (splitLines_ne_nil b)
    have h2 : splitLines (([] : Str) ++ '\n' :: b) = [] :: splitLines b := by
      simp [splitLines]
    rw [h2, List.length_cons]
    omega
  | cons c ca ih =>
    intro b
    by_cases hc : c = '\n'
    · subst hc
      have h2 : splitLines (('\n' :: ca) ++ '\n' :: b) =
          [] :: splitLines (ca ++ '\n' :: b) := by
        simp [splitLines]
      have h1 : 1 ≤ (splitLines (ca ++ '\n' :: b)).length :=
        List.length_pos.mpr (splitLines_ne_nil (ca ++ '\n' :: b))
      rw [h2, List.length_cons]
      omega
    · rw [List.cons_append, splitLines_cons_of_ne c _ hc, List.length_cons,
        List.length_tail]
      have := ih b
      omega

theorem finalLine_append_nl : ∀ (s t : Str), finalLine (s ++ '\n' :: t) = finalLine t := by
  intro s
  induction s with
  | nil =>
    intro t
    have h2 : splitLines (([] : Str) ++ '\n' :: t) = [] :: splitLines t := by
      simp [splitLines]
    simp only [finalLine, h2]
    rw [List.getLastD_cons]
  | cons c cs ih =>
    intro t
    by_cases hc : c = '\n'
    · subst hc
      have h2 : splitLines (('\n' :: cs) ++ '\n' :: t) =
          [] :: splitLines (cs ++ '\n' :: t) := by
        simp [splitLines]
      simp only [finalLine, h2]
      rw [List.getLastD_cons]
      exact ih t
    · have h2 : splitLines ((c :: cs) ++ '\n' :: t) =
          (c :: (splitLines (cs ++ '\n' :: t)).headD []) ::
            (splitLines (cs ++ '\n' :: t)).tail := by
        rw [List.cons_append, splitLines_cons_of_ne c _ hc]
      simp only [finalLine, h2]
      cases hm : splitLines (cs ++ '\n' :: t) with
      | nil => exact absurd hm (splitLines_ne_nil _)
      | cons x xs =>
        have hlen := two_le_splitLines_append cs t
        rw [hm] at hlen
        have hxs : xs ≠ [] := by
          intro he
          rw [he] at hlen
          simp at hlen
        have ihh := ih t
        simp only [finalLine, hm] at ihh
        rw [List.getLastD_cons] at ihh
        simp only [List.headD_cons, List.tail_cons]
        rw [List.getLastD_cons, getLastD_defaults xs (c :: x) x hxs]
        exact ihh

theorem keepLine_iff (l : Str) :
    keepLine l = true ↔ ¬(l.head? = some '#' ∧ l.length < 3) := by
  simp only [keepLine, Bool.not_eq_true', Bool.and_eq_false_iff, beq_eq_false_iff_ne,
    ne_eq, decide_eq_false_iff_not, not_lt, not_and, not_lt]
  constructor
  · rintro (h | h) h1
    · exact absurd h1 h
    · exact h
  · intro h
    by_cases h1 : l.head? = some '#'
    · exact Or.inr (h h1)
    · exact Or.inl h1

/-- The marker text that follows the two newlines of `contMarker`. -/
theorem contMarker_shape :
    contMarker = '\n' :: '\n' :: ("[Content continued in comments...]").toList := by
  decide

/-- Counterexample to claim C4 as stated: on the no-truncation path the
enforcer returns its input unchanged, so a final line that already is a
sub-3-character hashtag fragment survives. -/
theorem enforce_finalLine_shortHashtag_cex :
    (finalLine (enforce (("#a").toList) 2950)).head? = some '#' ∧
    (finalLine (enforce (("#a").toList) 2950)).length < 3 := by
  decide

/-- Claim C4 (amended): on the truncation path — whenever the input is
longer than the budget — the final line of the enforcer's output is never
a hashtag fragment shorter than 3 characters. -/
theorem enforce_finalLine_not_shortHashtag (t : Str) (max_chars : Nat)
    (h : max_chars < t.length) :
    ¬((finalLine (enforce t max_chars)).head? = some '#' ∧
      (finalLine (enforce t max_chars)).length < 3) := by
  have hnotle : ¬(t.length ≤ max_chars) := not_le.mpr h
  simp only [enforce, if_neg hnotle, hashtagCleanup]
  split
  · rw [contMarker_shape, finalLine_append_nl]
    have : ('\n' :: ("[Content continued in comments...]").toList) =
        ([] : Str) ++ '\n' :: ("[Content continued in comments...]").toList := rfl
    rw [this, finalLine_append_nl]
    decide
  · set cl := (splitLines (sentenceCut t max_chars)).filter keepLine with hcl
    by_cases hcln : cl = []
    · rw [hcln]
      decide
    · have hnl : ∀ l ∈ cl, '\n' ∉ l := fun l hl =>
        mem_splitLines_no_nl _ l (List.mem_of_mem_filter hl)
      simp only [finalLine, splitLines_joinLines cl hnl hcln]
      have hmem : cl.getLastD [] ∈ cl := getLastD_mem cl [] hcln
      have hkeep : keepLine (cl.getLastD []) = true := List.of_mem_filter hmem
      exact (keepLine_iff _).mp hkeep

/-- Witness for the amended C4 at a concrete over-budget input. -/
theorem enforce_finalLine_not_shortHashtag_witness :
    2 < (("abcd").toList).length ∧
    ¬((finalLine (enforce (("abcd").toList) 2)).head? = some '#' ∧
      (finalLine (enforce (("abcd").toList) 2)).length < 3) :=
  ⟨by decide, enforce_finalLine_not_shortHashtag (("abcd").toList) 2 (by decide)⟩

/-! ### Substring occurrence machinery -/

theorem startsSeq_iff : ∀ (p s : Str), startsSeq p s = true ↔ ∃ v, s = p ++ v := by
  intro p
  induction p with
  | nil => intro s; simp [startsSeq]
  | cons a ps ih =>
    intro s
    cases s with
    | nil => simp [startsSeq]
    | cons c cs =>
      simp only [startsSeq, Bool.and_eq_true, beq_iff_eq]
      constructor
      · rintro ⟨rfl, h⟩
        obtain ⟨v, rfl⟩ := (ih cs).mp h
        exact ⟨v, by simp⟩
      · rintro ⟨v, hv⟩
        simp only [List.cons_append, List.cons.injEq] at hv
        exact ⟨hv.1.symm, (ih cs).mpr ⟨v, hv.2⟩⟩

theorem isSubstr_iff : ∀ (s p : Str), isSubstr p s = true ↔ SubSeg p s := by
  intro s
  induction s with
  | nil =>
    intro p
    simp only [isSubstr]
    rw [startsSeq_iff]
    constructor
    · rintro ⟨v, hv⟩
      exact ⟨[], v, by simpa using hv⟩
    · rintro ⟨u, v, huv⟩
      have h := huv.symm
      simp only [List.append_eq_nil] at h
      exact ⟨[], by simp [h.1.2]⟩
  | cons c cs ih =>
    intro p
    simp only [isSubstr, Bool.or_eq_true]
    rw [startsSeq_iff, ih]
    constructor
    · rintro (⟨v, hv⟩ | ⟨u, v, huv⟩)
      · exact ⟨[], v, by simpa using hv⟩
      · exact ⟨c :: u, v, by simp [huv]⟩
    · rintro ⟨u, v, huv⟩
      cases u with
      | nil => exact Or.inl ⟨v, by simpa using huv⟩
      | cons d u2 =>
        simp only [List.cons_append, List.cons.injEq] at huv
        exact Or.inr ⟨u2, v, huv.2⟩

theorem SubSeg_trans {a b c : Str} (h1 : SubSeg a b) (h2 : SubSeg b c) :
    SubSeg a c := by
  obtain ⟨u1, v1, e1⟩ := h1
  obtain ⟨u2, v2, e2⟩ := h2
  exact ⟨u2 ++ u1, v1 ++ v2, by simp [e2, e1]⟩

theorem SubSeg_map (f : Char → Char) {p s : Str} (h : SubSeg p s) :
    SubSeg (p.map f) (s.map f) := by
  obtain ⟨u, v, e⟩ := h
  exact ⟨u.map f, v.map f, by simp [e]⟩

theorem SubSeg_cons (c : Char) (l s : Str) (h : SubSeg l s) : SubSeg l (c :: s) := by
  obtain ⟨u, v, huv⟩ := h
  exact ⟨c :: u, v, by simp [huv]⟩

theorem dropWhile_exists (q : Char → Bool) (s : Str) :
    ∃ u, s = u ++ s.dropWhile q := by
  induction s with
  | nil => exact ⟨[], rfl⟩
  | cons c cs ih =>
    by_cases h : q c
    · obtain ⟨u, hu⟩ := ih
      refine ⟨c :: u, ?_⟩
      simp only [List.dropWhile_cons, h, if_pos, List.cons_append]
      exact congrArg (c :: ·) hu
    · refine ⟨[], ?_⟩
      simp [List.dropWhile_cons, h]

theorem pyStrip_subSeg (s : Str) : SubSeg (pyStrip s) s := by
  obtain ⟨u, hu⟩ := dropWhile_exists pySpace s
  obtain ⟨w, hw⟩ := dropWhile_exists pySpace (dropLead s).reverse
  refine ⟨u, w.reverse, ?_⟩
  have h1 : dropLead s = pyStrip s ++ w.reverse := by
    have h2 := congrArg List.reverse hw
    simpa [pyStrip, dropTrail, List.reverse_append] using h2
  have h3 : s = u ++ (pyStrip s ++ w.reverse) := by
    rw [← h1]
    exact hu
  simpa [List.append_assoc] using h3

theorem headD_splitLines_front : ∀ (s : Str), ∃ v, s = (splitLines s).headD [] ++ v := by
  intro s
  induction s with
  | nil => exact ⟨[], rfl⟩
  | cons c cs ih =>
    by_cases hc : c = '\n'
    · subst hc
      refine ⟨'\n' :: cs, ?_⟩
      simp [splitLines]
    · obtain ⟨v, hv⟩ := ih
      refine ⟨v, ?_⟩
      rw [splitLines_cons_of_ne c _ hc]
      simp only [List.headD_cons, List.cons_append]
      exact congrArg (c :: ·) hv

theorem mem_splitLines_subSeg : ∀ (s : Str) (l : Str), l ∈ splitLines s → SubSeg l s := by
  intro s
  induction s with
  | nil =>
    intro l hl
    simp only [splitLines, List.mem_singleton] at hl
    exact ⟨[], [], by simp [hl]⟩
  | cons c cs ih =>
    intro l hl
    by_cases hc : c = '\n'
    · subst hc
      rw [show splitLines ('\n' :: cs) = [] :: splitLines cs by simp [splitLines]] at hl
      rcases List.mem_cons.mp hl with rfl | hm
      · exact ⟨[], '\n' :: cs, rfl⟩
      · exact SubSeg_cons _ _ _ (ih l hm)
    · rw [splitLines_cons_of_ne c _ hc] at hl
      rcases List.mem_cons.mp hl with rfl | hm
      · obtain ⟨v, hv⟩ := headD_splitLines_front cs
        set h0 := (splitLines cs).headD [] with hh0
        exact ⟨[], v, by rw [hv]; simp⟩
      · have hmem : l ∈ splitLines cs := by
          cases hsc : splitLines cs with
          | nil => exact absurd hsc (splitLines_ne_nil cs)
          | cons m ms =>
            rw [hsc] at hm
            simp only [List.tail_cons] at hm
            exact List.mem_cons_of_mem m hm
        exact SubSeg_cons _ _ _ (ih l hmem)

theorem startsSeq_stops : ∀ (p : Str), '\n' ∉ p → ∀ (a r : Str),
    startsSeq p (a ++ '\n' :: r) = true → startsSeq p a = true := by
  intro p
  induction p with
  | nil => intro _ a r _; simp [startsSeq]
  | cons q qs ih =>
    intro hp a r h
    cases a with
    | nil =>
      exfalso
      simp only [List.nil_append, startsSeq, Bool.and_eq_true, beq_iff_eq] at h
      apply hp
      rw [← h.1]
      exact List.mem_cons_self q qs
    | cons c ca =>
      simp only [List.cons_append, startsSeq, Bool.and_eq_true] at h ⊢
      exact ⟨h.1, ih (fun hm => hp (List.mem_cons_of_mem q hm)) ca r h.2⟩

theorem isSubstr_append_nl : ∀ (a : Str) (p r : Str), '\n' ∉ p →
    isSubstr p (a ++ '\n' :: r) = true →
    isSubstr p a = true ∨ isSubstr p r = true := by
  intro a
  induction a with
  | nil =>
    intro p r hp h
    cases p with
    | nil => exact Or.inl (by simp [isSubstr, startsSeq])
    | cons q qs =>
      simp only [List.nil_append, isSubstr, Bool.or_eq_true] at h
      rcases h with h | h
      · exfalso
        simp only [startsSeq, Bool.and_eq_true, beq_iff_eq] at h
        apply hp
        rw [← h.1]
        exact List.mem_cons_self q qs
      · exact Or.inr h
  | cons c ca ih =>
    intro p r hp h
    simp only [List.cons_append, isSubstr, Bool.or_eq_true] at h
    rcases h with h | h
    · refine Or.inl ?_
      have hst : startsSeq p ((c :: ca) ++ '\n' :: r) = true := by
        simpa using h
      have := startsSeq_stops p hp (c :: ca) r hst
      simp only [isSubstr, Bool.or_eq_true]
      exact Or.inl this
    · rcases ih p r hp h with h1 | h1
      · refine Or.inl ?_
        simp only [isSubstr, Bool.or_eq_true]
        exact Or.inr h1
      · exact Or.inr h1

theorem isSubstr_joinLines : ∀ (ls : List Str) (p : Str), '\n' ∉ p → p ≠ [] →
    isSubstr p (joinLines ls) = true → ∃ l ∈ ls, isSubstr p l = true := by
  intro ls
  induction ls with
  | nil =>
    intro p hnl hne h
    cases p with
    | nil => exact absurd rfl hne
    | cons q qs => simp [joinLines, isSubstr, startsSeq] at h
  | cons x xs ih =>
    intro p hnl hne h
    cases xs with
    | nil =>
      simp only [joinLines, auxJoin, List.append_nil] at h
      exact ⟨x, List.mem_cons_self x [], h⟩
    | cons y ys =>
      have hj : joinLines (x :: y :: ys) = x ++ '\n' :: joinLines (y :: ys) := by
        simp [joinLines, auxJoin]
      rw [hj] at h
      rcases isSubstr_append_nl x p _ hnl h with h1 | h1
      · exact ⟨x, List.mem_cons_self x _, h1⟩
      · obtain ⟨l, hl, hsub⟩ := ih p hnl hne h1
        exact ⟨l, List.mem_cons_of_mem x hl, hsub⟩

theorem lowerStr_auxJoin : ∀ (ls : List Str),
    lowerStr (auxJoin ls) = auxJoin (ls.map lowerStr) := by
  intro ls
  induction ls with
  | nil => rfl
  | cons y ys ih =>
    have hnl : Char.toLower '\n' = '\n' := by decide
    simp only [auxJoin, List.map_cons, lowerStr, List.map_append] at ih ⊢
    simp [hnl, ih]

theorem lowerStr_joinLines (ls : List Str) :
    lowerStr (joinLines ls) = joinLines (ls.map lowerStr) := by
  cases ls with
  | nil => rfl
  | cons x xs =>
    simp only [joinLines, List.map_cons, lowerStr, List.map_append]
    have := lowerStr_auxJoin xs
    simp only [lowerStr] at this
    rw [this]

/-! ### Properties of the response-cleaning loop -/

theorem mem_cleanLines_phrase_free : ∀ (ls : List Str) (k : Bool) (l : Str),
    l ∈ cleanLines ls k → phraseHit l = false := by
  intro ls
  induction ls with
  | nil => intro k l h; simp [cleanLines] at h
  | cons raw rest ih =>
    intro k l h
    simp only [cleanLines] at h
    by_cases h1 : phraseHit (pyStrip raw) = true
    · rw [if_pos h1] at h
      exact ih k l h
    · rw [if_neg h1] at h
      by_cases h2 : ((pyStrip raw).isEmpty && !k) = true
      · rw [if_pos h2] at h
        exact ih k l h
      · rw [if_neg h2] at h
        by_cases h3 : ((pyStrip raw).head? == some '-' &&
            decide ((splitWS (pyStrip raw)).length < 8)) = true
        · rw [if_pos h3] at h
          exact ih k l h
        · rw [if_neg h3] at h
          rcases List.mem_cons.mp h with rfl | hm
          · simp only [Bool.not_eq_true] at h1
            exact h1
          · exact ih true l hm

theorem cleanLines_nil_of_dropAll : ∀ (ls : List Str),
    (∀ l ∈ ls, dropRule (pyStrip l) = true) → cleanLines ls false = [] := by
  intro ls
  induction ls with
  | nil => intro _; rfl
  | cons raw rest ih =>
    intro h
    have hraw := h raw (List.mem_cons_self raw rest)
    have hrest : ∀ l ∈ rest, dropRule (pyStrip l) = true := fun l hl =>
      h l (List.mem_cons_of_mem raw hl)
    simp only [cleanLines]
    by_cases h1 : phraseHit (pyStrip raw) = true
    · rw [if_pos h1]
      exact ih hrest
    · rw [if_neg h1]
      by_cases h2 : (pyStrip raw).isEmpty = true
      · rw [if_pos (by simp [h2])]
        exact ih hrest
      · have h3 : ((pyStrip raw).head? == some '-' &&
            decide ((splitWS (pyStrip raw)).length < 8)) = true := by
          simp only [dropRule, Bool.or_eq_true] at hraw
          rcases hraw with (hx | hx) | hx
          · exact absurd hx h1
          · exact absurd hx h2
          · exact hx
        rw [if_neg (by simp [h2]), if_pos h3]
        exact ih hrest

/-- Claim C7: no line of the sanitizer's output contains any of the fixed
instruction-leak phrases as a case-insensitive substring. -/
theorem clean_response_no_phrase (content : Str) :
    ∀ l ∈ splitLines (clean_response content), ∀ ph ∈ instruction_phrases,
      isSubstr (lowerStr ph) (lowerStr l) = false := by
  intro l hl ph hph
  by_contra hcon
  rw [Bool.not_eq_false] at hcon
  have hphs : ∀ q ∈ instruction_phrases, '\n' ∉ lowerStr q ∧ lowerStr q ≠ [] := by
    decide
  obtain ⟨hnl, hne⟩ := hphs ph hph
  have h1 : SubSeg l (pyStrip (joinLines (cleanLines (splitLines content) false))) :=
    mem_splitLines_subSeg _ _ hl
  have h2 : SubSeg (pyStrip (joinLines (cleanLines (splitLines content) false)))
      (joinLines (cleanLines (splitLines content) false)) := pyStrip_subSeg _
  have h3 : SubSeg l (joinLines (cleanLines (splitLines content) false)) :=
    SubSeg_trans h1 h2
  have h4 : SubSeg (lowerStr l)
      (lowerStr (joinLines (cleanLines (splitLines content) false))) :=
    SubSeg_map Char.toLower h3
  have h5 : SubSeg (lowerStr ph) (lowerStr l) := (isSubstr_iff _ _).mp hcon
  have h6 := SubSeg_trans h5 h4
  rw [lowerStr_joinLines] at h6
  have h7 : isSubstr (lowerStr ph)
      (joinLines ((cleanLines (splitLines content) false).map lowerStr)) = true :=
    (isSubstr_iff _ _).mpr h6
  obtain ⟨m, hm, hsub⟩ := isSubstr_joinLines _ _ hnl hne h7
  obtain ⟨l0, hl0, rfl⟩ := List.mem_map.mp hm
  have hfree : phraseHit l0 = false := mem_cleanLines_phrase_free _ _ _ hl0
  have hany : phraseHit l0 = true :=
    List.any_eq_true.mpr ⟨ph, hph, hsub⟩
  rw [hfree] at hany
  exact Bool.false_ne_true hany

/-- Witness for C7: the kept content line of a concrete input is free of
the phrase "CRITICAL:". -/
theorem clean_response_no_phrase_witness :
    isSubstr (lowerStr (("CRITICAL:").toList))
      (lowerStr (("Good content line one here.").toList)) = false :=
  clean_response_no_phrase
    (("Good content line one here.\nCRITICAL: stay under limit").toList)
    (("Good content line one here.").toList) (by decide)
    (("CRITICAL:").toList) (by decide)

/-- Claim C9: when every line of the input is dropped by one of the skip
rules, the sanitizer returns the empty string (no exception) and the
low-confidence warning fires. -/
theorem clean_response_empty_of_dropAll (content : Str)
    (h : ∀ l ∈ splitLines content, dropRule (pyStrip l) = true) :
    clean_response content = [] ∧
      lowConfWarning (clean_response content) = true := by
  have h0 : cleanLines (splitLines content) false = [] :=
    cleanLines_nil_of_dropAll _ h
  constructor
  · simp [clean_response, h0, joinLines, pyStrip, dropLead, dropTrail]
  · simp [clean_response, h0, joinLines, pyStrip, dropLead, dropTrail,
      lowConfWarning]

/-- Witness for C9 at an input whose every line is filtered out. -/
theorem clean_response_empty_of_dropAll_witness :
    clean_response (("CRITICAL: stay under limit\n- Use\n").toList) = [] ∧
      lowConfWarning
        (clean_response (("CRITICAL: stay under limit\n- Use\n").toList)) = true :=
  clean_response_empty_of_dropAll
    (("CRITICAL: stay under limit\n- Use\n").toList) (by decide)

/-! ### The model-fallback control flow -/

/-- Counterexample to claim C3 as stated: when the fast-model fallback also
fails, the code logs the fallback error but re-raises the original
exception, so the propagated message is the original one and does not
carry the fallback message. -/
theorem fallback_error_propagation_cex :
    (generate_post_content
        (fun m => if m = fastId then GenResult.err (("boom").toList)
          else GenResult.err (("model decommissioned").toList))
        qualityId (("ai").toList)).result
      = PyRes.exn (("model decommissioned").toList) ∧
    isSubstr (("boom").toList) (("model decommissioned").toList) = false := by
  decide

/-- Claim C3 (amended): when the provider error matches the deprecation
pattern and the single fast-model fallback also fails (and the original
message does not match the rate-limit pattern), the service restores the
original model identifier and propagates the ORIGINAL error; the fallback
error is only logged, never propagated. -/
theorem fallback_failure_restores_and_raises_original (gen : Str → GenResult)
    (model topic e e2 : Str)
    (hgen : gen model = GenResult.err e)
    (hmi : modelIssueMatch e = true)
    (hfb : gen fastId = GenResult.err e2)
    (hrate : rateMatch e = false) :
    (generate_post_content gen model topic).result = PyRes.exn e ∧
    (generate_post_content gen model topic).final_model = model := by
  simp [generate_post_content, hgen, hmi, hfb, hrate]

/-- Witness for the amended C3 at a concrete oracle. -/
theorem fallback_failure_restores_witness :
    (generate_post_content
        (fun m => if m = fastId then GenResult.err (("fallback broke too").toList)
          else GenResult.err (("model deprecated").toList))
        qualityId (("tech").toList)).result
      = PyRes.exn (("model deprecated").toList) ∧
    (generate_post_content
        (fun m => if m = fastId then GenResult.err (("fallback broke too").toList)
          else GenResult.err (("model deprecated").toList))
        qualityId (("tech").toList)).final_model = qualityId :=
  fallback_failure_restores_and_raises_original
    (fun m => if m = fastId then GenResult.err (("fallback broke too").toList)
      else GenResult.err (("model deprecated").toList))
    qualityId (("tech").toList)
    (("model deprecated").toList) (("fallback broke too").toList)
    (by decide) (by decide) (by decide) (by decide)

/-- Counterexample to claim C5 as stated: a message matching both the
rate-limit pattern and the deprecation pattern takes the fallback path
first, and a successful fallback returns the generated content, not the
canned advisory containing the topic. -/
theorem rate_limit_advisory_cex :
    rateMatch (("model decommissioned by rate policy").toList) = true ∧
    (generate_post_content
        (fun m => if m = fastId then GenResult.ok (("A post.").toList)
          else GenResult.err (("model decommissioned by rate policy").toList))
        qualityId (("quantum computing").toList)).result
      = PyRes.val (("A post.").toList) ∧
    isSubstr (("quantum computing").toList) (("A post.").toList) = false := by
  decide

/-- Claim C5 (amended): when the provider call under the original model
fails with a message matching the rate/quota/429 pattern — and the message
does not also match the deprecation pattern with a succeeding fallback —
`generate_post_content` returns success with the canned advisory, which
contains the literal topic and the current (original) model identifier. -/
theorem rate_limit_advisory (gen : Str → GenResult) (model topic e : Str)
    (hgen : gen model = GenResult.err e)
    (hrate : rateMatch e = true)
    (hfb : modelIssueMatch e = true → ∃ e2, gen fastId = GenResult.err e2) :
    (generate_post_content gen model topic).result =
      PyRes.val (rateLimitText topic model) ∧
    SubSeg topic (rateLimitText topic model) ∧
    SubSeg model (rateLimitText topic model) ∧
    (generate_post_content gen model topic).final_model = model := by
  have hsub1 : SubSeg topic (rateLimitText topic model) :=
    ⟨ratePre, rateMid ++ model ++ rateSuf, by simp [rateLimitText]⟩
  have hsub2 : SubSeg model (rateLimitText topic model) :=
    ⟨ratePre ++ topic ++ rateMid, rateSuf, by simp [rateLimitText]⟩
  by_cases hmi : modelIssueMatch e = true
  · obtain ⟨e2, he2⟩ := hfb hmi
    simp [generate_post_content, hgen, hmi, he2, hrate]
    exact ⟨hsub1, hsub2⟩
  · have hmi0 : modelIssueMatch e = false := by simpa using hmi
    simp [generate_post_content, hgen, hmi0, hrate]
    exact ⟨hsub1, hsub2⟩

/-- Witness for the amended C5 at the spec's own example message. -/
theorem rate_limit_advisory_witness :
    (generate_post_content (fun _ => GenResult.err (("429 too many requests").toList))
        qualityId (("remote work").toList)).result =
      PyRes.val (rateLimitText (("remote work").toList) qualityId) ∧
    SubSeg (("remote work").toList)
      (rateLimitText (("remote work").toList) qualityId) ∧
    SubSeg qualityId (rateLimitText (("remote work").toList) qualityId) ∧
    (generate_post_content (fun _ => GenResult.err (("429 too many requests").toList))
        qualityId (("remote work").toList)).final_model = qualityId :=
  rate_limit_advisory (fun _ => GenResult.err (("429 too many requests").toList))
    qualityId (("remote work").toList) (("429 too many requests").toList)
    (by decide) (by decide) (fun h => absurd h (by decide))

/-- Claim C6: an error matching the deprecation pattern triggers exactly
one retry, against the fast-tier model; a successful retry's content is
returned (after the usual length enforcement) with the fast model left
current, which differs from any original model other than the fast tier. -/
theorem fallback_retry_once (gen : Str → GenResult) (model topic e : Str)
    (hgen : gen model = GenResult.err e)
    (hmi : modelIssueMatch e = true) :
    (generate_post_content gen model topic).calls = [model, fastId] ∧
    (∀ c, gen fastId = GenResult.ok c →
      (generate_post_content gen model topic).result = PyRes.val (enforce c 2950) ∧
      (generate_post_content gen model topic).final_model = fastId ∧
      (model ≠ fastId → (generate_post_content gen model topic).final_model ≠ model)) := by
  constructor
  · cases hf : gen fastId with
    | ok c => simp [generate_post_content, hgen, hmi, hf]
    | err e2 =>
      simp only [generate_post_content, hgen, hmi, if_true, hf]
      split <;> rfl
  · intro c hc
    refine ⟨?_, ?_, ?_⟩
    · simp [generate_post_content, hgen, hmi, hc]
    · simp [generate_post_content, hgen, hmi, hc]
    · intro hne
      simp only [generate_post_content, hgen, hmi, if_true, hc]
      exact fun he => hne he.symm

/-- Witness for C6 at a concrete oracle whose fallback succeeds. -/
theorem fallback_retry_once_witness :
    (generate_post_content
        (fun m => if m = fastId then GenResult.ok (("Great post.").toList)
          else GenResult.err (("model decommissioned").toList))
        qualityId (("t").toList)).calls = [qualityId, fastId] ∧
    ((generate_post_content
        (fun m => if m = fastId then GenResult.ok (("Great post.").toList)
          else GenResult.err (("model decommissioned").toList))
        qualityId (("t").toList)).result =
      PyRes.val (enforce (("Great post.").toList) 2950) ∧
    (generate_post_content
        (fun m => if m = fastId then GenResult.ok (("Great post.").toList)
          else GenResult.err (("model decommissioned").toList))
        qualityId (("t").toList)).final_model = fastId ∧
    (qualityId ≠ fastId →
      (generate_post_content
          (fun m => if m = fastId then GenResult.ok (("Great post.").toList)
            else GenResult.err (("model decommissioned").toList))
          qualityId (("t").toList)).final_model ≠ qualityId)) := by
  refine ⟨?_, ?_⟩
  · exact (fallback_retry_once
      (fun m => if m = fastId then GenResult.ok (("Great post.").toList)
        else GenResult.err (("model decommissioned").toList))
      qualityId (("t").toList) (("model decommissioned").toList)
      (by decide) (by decide)).1
  · exact (fallback_retry_once
      (fun m => if m = fastId then GenResult.ok (("Great post.").toList)
        else GenResult.err (("model decommissioned").toList))
      qualityId (("t").toList) (("model decommissioned").toList)
      (by decide) (by decide)).2 (("Great post.").toList) (by decide)

/-! ### Model-catalog invariant -/

theorem lookup_mem_values : ∀ (l : List (Str × Str)) (k v : Str),
    l.lookup k = some v → v ∈ l.map Prod.snd := by
  intro l
  induction l with
  | nil => intro k v h; simp [List.lookup] at h
  | cons p ps ih =>
    intro k v h
    cases p with
    | mk a b =>
      by_cases hk : (k == a) = true
      · simp only [List.lookup, hk, if_pos, Option.some.injEq] at h
        simp [← h]
      · simp only [List.lookup, hk, Bool.false_eq_true, if_neg,
          not_false_eq_true] at h
        exact List.mem_cons_of_mem _ (ih k v h)

/-- Claim C10: after construction with any `model_name`, after any
`switch_model` call (unknown keys leave the model unchanged, without
raising), and after any `generate_post_content` run (success, fallback
success, or fallback failure), the current model identifier is always one
of the four identifiers of the fixed catalog. -/
theorem model_identifier_invariant (m0 : Option Str) (s k topic : Str)
    (gen : Str → GenResult) (hs : s ∈ modelValues) :
    initModel m0 ∈ modelValues ∧
    switch_model s k ∈ modelValues ∧
    (available_models.lookup k = none → switch_model s k = s) ∧
    (generate_post_content gen s topic).final_model ∈ modelValues := by
  refine ⟨?_, ?_, ?_, ?_⟩
  · cases m0 with
    | none => decide
    | some m =>
      simp only [initModel]
      split
      · rename_i h
        exact h.2
      · split
        · rename_i h
          cases hl : available_models.lookup m with
          | none => rw [hl] at h; simp at h
          | some v =>
            simp only [Option.getD_some]
            exact lookup_mem_values _ _ _ hl
        · decide
  · simp only [switch_model]
    cases hl : available_models.lookup k with
    | none => exact hs
    | some v => exact lookup_mem_values _ _ _ hl
  · intro hnone
    simp [switch_model, hnone]
  · cases hg : gen s with
    | ok c =>
      simp only [generate_post_content, hg]
      exact hs
    | err e =>
      by_cases hmi : modelIssueMatch e = true
      · cases hf : gen fastId with
        | ok c =>
          simp only [generate_post_content, hg, hmi, if_true, hf]
          decide
        | err e2 =>
          simp only [generate_post_content, hg, hmi, if_true, hf]
          split <;> exact hs
      · have hmi0 : modelIssueMatch e = false := by simpa using hmi
        simp only [generate_post_content, hg, hmi0, Bool.false_eq_true,
          if_false]
        split <;> exact hs

/-- Witness for C10 at concrete arguments. -/
theorem model_identifier_invariant_witness :
    initModel (some (("balanced").toList)) ∈ modelValues ∧
    switch_model qualityId (("fast").toList) ∈ modelValues ∧
    (available_models.lookup (("fast").toList) = none →
      switch_model qualityId (("fast").toList) = qualityId) ∧
    (generate_post_content (fun _ => GenResult.ok (("x").toList))
        qualityId (("t").toList)).final_model ∈ modelValues :=
  model_identifier_invariant (some (("balanced").toList)) qualityId
    (("fast").toList) (("t").toList)
    (fun _ => GenResult.ok (("x").toList)) (by decide)


/-! ### The publish-layer re-validation against the enforcer (claim C2) -/

theorem rfind_ge_neg_one (c : Char) (s : Str) : -1 ≤ rfind c s := by
  induction s with
  | nil => simp [rfind]
  | cons x xs ih =>
    simp only [rfind]
    split
    · omega
    · split <;> omega

theorem rfind_append (c : Char) (s u : Str) :
    rfind c (s ++ u) =
      if rfind c u ≥ 0 then (s.length : Int) + rfind c u else rfind c s := by
  induction s with
  | nil =>
    simp only [List.nil_append, List.length_nil, Nat.cast_zero, zero_add]
    split
    · rfl
    · rename_i h
      have h1 := rfind_ge_neg_one c u
      simp only [rfind]
      omega
  | cons x xs ih =>
    by_cases hu : rfind c u ≥ 0
    · have hih : rfind c (xs ++ u) = (xs.length : Int) + rfind c u := by
        rw [ih, if_pos hu]
      rw [List.cons_append]
      simp only [rfind]
      rw [hih]
      have hpos2 : (xs.length : Int) + rfind c u ≥ 0 := by
        have : (0 : Int) ≤ (xs.length : Int) := Int.ofNat_nonneg _
        omega
      rw [if_pos hpos2, if_pos hu]
      push_cast [List.length_cons]
      omega
    · have hih : rfind c (xs ++ u) = rfind c xs := by rw [ih, if_neg hu]
      rw [List.cons_append]
      simp only [rfind, hih]
      rw [if_neg hu]

theorem rfind_replicate (c a : Char) (h : a ≠ c) (n : Nat) :
    rfind c (List.replicate n a) = -1 := by
  induction n with
  | zero => rfl
  | succ n ih =>
    rw [List.replicate_succ]
    simp only [rfind, ih]
    rw [if_neg (by omega), if_neg h]

theorem bestEnding_replicate_a (n : Nat) :
    bestEnding (List.replicate n 'a') = -1 := by
  unfold bestEnding
  rw [rfind_replicate '.' 'a' (by decide) n, rfind_replicate '?' 'a' (by decide) n,
    rfind_replicate '!' 'a' (by decide) n]
  decide

def c2text : Str := List.replicate 2790 'a' ++ '.' :: List.replicate 210 'b'

theorem c2text_length : c2text.length = 3001 := by
  unfold c2text
  rw [List.length_append, List.length_replicate, List.length_cons,
    List.length_replicate]

theorem c2text_take : c2text.take 2950 =
    List.replicate 2790 'a' ++ '.' :: List.replicate 159 'b' := by
  unfold c2text
  rw [List.take_append_eq_append_take, List.take_replicate, List.length_replicate,
    show (2950 : Nat) ⊓ 2790 = 2790 from by norm_num,
    show (2950 : Nat) - 2790 = 160 from by norm_num,
    show (160 : Nat) = 159 + 1 from by norm_num,
    List.take_succ_cons, List.take_replicate,
    show (159 : Nat) ⊓ 210 = 159 from by norm_num]

theorem rfind_cons (c x : Char) (xs : Str) :
    rfind c (x :: xs) =
      if rfind c xs ≥ 0 then rfind c xs + 1 else if x = c then 0 else -1 := rfl

theorem c2text_bestEnding : bestEnding (c2text.take 2950) = 2790 := by
  rw [c2text_take]
  unfold bestEnding
  rw [rfind_append '.', rfind_append '?', rfind_append '!']
  have h1 : rfind '.' ('.' :: List.replicate 159 'b') = 0 := by
    rw [rfind_cons, rfind_replicate '.' 'b' (by decide) 159,
      if_neg (by omega), if_pos rfl]
  have h2 : rfind '?' ('.' :: List.replicate 159 'b') = -1 := by
    rw [rfind_cons, rfind_replicate '?' 'b' (by decide) 159,
      if_neg (by omega), if_neg (by decide)]
  have h3 : rfind '!' ('.' :: List.replicate 159 'b') = -1 := by
    rw [rfind_cons, rfind_replicate '!' 'b' (by decide) 159,
      if_neg (by omega), if_neg (by decide)]
  rw [h1, h2, h3]
  rw [if_pos (by omega)]
  rw [if_neg (by omega)]
  rw [if_neg (by omega)]
  rw [rfind_replicate '?' 'a' (by decide), rfind_replicate '!' 'a' (by decide)]
  rw [List.length_replicate]
  decide

theorem c2text_sentenceCut :
    sentenceCut c2text 2950 = List.replicate 2790 'a' ++ ['.'] := by
  unfold sentenceCut
  rw [c2text_bestEnding, if_pos (by norm_num),
    show ((2790 : Int) + 1).toNat = 2791 by decide]
  unfold c2text
  rw [List.take_append_eq_append_take, List.take_replicate, List.length_replicate,
    show (2791 : Nat) ⊓ 2790 = 2790 from by norm_num,
    show (2791 : Nat) - 2790 = 1 from by norm_num,
    show (1 : Nat) = 0 + 1 from by norm_num,
    List.take_succ_cons, List.take_zero]

theorem c2line_no_nl : '\n' ∉ List.replicate 2790 'a' ++ ['.'] := by
  intro hm
  rcases List.mem_append.mp hm with hm | hm
  · exact absurd (List.mem_replicate.mp hm).2 (by decide)
  · rw [List.mem_singleton] at hm
    exact absurd hm (by decide)

theorem c2line_keep : keepLine (List.replicate 2790 'a' ++ ['.']) = true := by
  have hhead : (List.replicate 2790 'a' ++ ['.']).head? = some 'a' := by
    rw [show (2790 : Nat) = 2789 + 1 from by norm_num, List.replicate_succ]
    rfl
  rw [keepLine, hhead]
  decide

theorem c2text_hashtagCleanup :
    hashtagCleanup (List.replicate 2790 'a' ++ ['.']) =
      List.replicate 2790 'a' ++ ['.'] := by
  unfold hashtagCleanup
  rw [splitLines_no_nl _ c2line_no_nl, List.filter_cons, c2line_keep]
  rw [if_pos (by trivial), List.filter_nil, joinLines, auxJoin, List.append_nil]

theorem c2text_enforce :
    enforce c2text 2950 = (List.replicate 2790 'a' ++ ['.']) ++ contMarker := by
  unfold enforce
  rw [if_neg (by rw [c2text_length]; norm_num), c2text_sentenceCut,
    c2text_hashtagCleanup,
    if_pos (by
      rw [List.length_append, List.length_replicate]
      push_cast
      norm_num)]

theorem c2text_create_post :
    create_post_truncate c2text = c2text.take 2950 := by
  unfold create_post_truncate
  rw [if_pos (by rw [c2text_length]; norm_num), c2text_bestEnding,
    if_neg (by norm_num)]

/-- Counterexample to claim C2 as stated. -/
theorem create_post_ne_enforce_cex :
    create_post_truncate c2text ≠ enforce c2text 2950 := by
  intro he
  have hL := congrArg List.length he
  rw [c2text_create_post, c2text_enforce, List.length_take, c2text_length,
    List.length_append, List.length_append, List.length_replicate,
    contMarker_length] at hL
  norm_num at hL

/-- Claim C2 (amended). -/
theorem create_post_matches_enforce (t : Str)
    (h1 : 3000 < t.length)
    (h2 : bestEnding (t.take 2950) ≤ 2750)
    (h3 : ∀ l ∈ splitLines (t.take 2950), keepLine l = true) :
    create_post_truncate t = enforce t 2950 := by
  have hgt : ¬(t.length ≤ 2950) := by omega
  have hcut : sentenceCut t 2950 = t.take 2950 := by
    unfold sentenceCut
    rw [if_neg]
    push_cast
    omega
  have hclean : hashtagCleanup (sentenceCut t 2950) = t.take 2950 := by
    rw [hcut]
    unfold hashtagCleanup
    rw [List.filter_eq_self.mpr h3, joinLines_splitLines]
  have hlen : (t.take 2950).length = 2950 := by
    rw [List.length_take]
    omega
  have henf : enforce t 2950 = t.take 2950 := by
    unfold enforce
    rw [if_neg hgt, hclean, hlen, if_neg (by norm_num)]
  have hcreate : create_post_truncate t = t.take 2950 := by
    unfold create_post_truncate
    rw [if_pos h1, if_neg (by omega)]
  rw [henf, hcreate]

/-- Witness for the amended C2. -/
theorem create_post_matches_enforce_witness :
    3000 < (List.replicate 3001 'a').length ∧
    create_post_truncate (List.replicate 3001 'a') =
      enforce (List.replicate 3001 'a') 2950 := by
  have htk : (List.replicate 3001 'a').take 2950 = List.replicate 2950 'a' := by
    rw [List.take_replicate, show (2950 : Nat) ⊓ 3001 = 2950 from by norm_num]
  have hlen : (List.replicate 3001 'a').length = 3001 := List.length_replicate _ _
  refine ⟨by rw [hlen]; norm_num, ?_⟩
  apply create_post_matches_enforce
  · rw [hlen]; norm_num
  · rw [htk, bestEnding_replicate_a]
    norm_num
  · intro l hl
    rw [htk, splitLines_no_nl _ (fun hm =>
      absurd (List.mem_replicate.mp hm).2 (by decide))] at hl
    rw [List.mem_singleton] at hl
    subst hl
    rw [keepLine, show (2950 : Nat) = 2949 + 1 from by norm_num,
      List.replicate_succ, List.head?_cons]
    decide
